import Mathlib

/-!
Verification of the gadget-enumeration core of `ropr` (`src/gadgets.rs`)
against its natural-language specification.

The Rust source is shallowly embedded below.  `iced_x86::Instruction` is
opaque to the core: the core only reads an instruction's encoded byte length
(`Instruction::len`), compares instructions for equality, and hands them to
the external rule-table predicates of `crate::rules` (spec §6), which are
therefore taken as function parameters.  Machine integers (`usize`) are
modelled as `Nat`; the one place where `usize` subtraction can underflow
(`max_instructions - 1` in `GadgetIterator::next`, see claim C3) is noted at
the corresponding definition.
-/

set_option maxHeartbeats 1000000

/-- Model of `iced_x86::Instruction` as observed by `src/gadgets.rs`: `len` is
the encoded byte length returned by `Instruction::len()`; `id` abstracts all
remaining observable content of a decoded instruction (used only for
equality). -/
structure Instruction where
  len : Nat
  id : Nat
deriving DecidableEq, Repr

/-- Model of `iced_x86::FormatterTextKind`: the kinds written by `gadgets.rs`
itself are `Text` and `Function`; `Other n` abstracts the remaining variants
that the external per-instruction formatter may emit. -/
inductive FormatterTextKind where
  | Text
  | Function
  | Other (n : Nat)
deriving DecidableEq, Repr

/-- `Gadget` from `src/gadgets.rs` lines 10-14. -/
structure Gadget where
  file_offset : Nat
  instructions : List Instruction
deriving DecidableEq, Repr

/-- `impl PartialEq for Gadget` (line 17): equality is `Vec::eq` on
`instructions` alone; `file_offset` is not consulted. -/
def Gadget.beq (a b : Gadget) : Bool :=
  a.instructions == b.instructions

/-- `impl Hash for Gadget` (lines 22-29): the hasher state is fed exactly
`self.instructions` and nothing else.  `hasher` abstracts the external
`Hasher`, so the resulting hash value is `hasher` applied to the instruction
list alone. -/
def Gadget.hashWith (hasher : List Instruction → Nat) (g : Gadget) : Nat :=
  hasher g.instructions

/-- `impl Ord for Gadget` (lines 37-39): `self.file_offset.cmp(&other.file_offset)`. -/
def Gadget.cmp (a b : Gadget) : Ordering :=
  compare a.file_offset b.file_offset

/-- `a ≤ b` in the order induced by `Gadget.cmp`: what a sort over `Gadget`
values consults (`cmp` never answers `Greater`). -/
def gadgetLE (a b : Gadget) : Prop :=
  Gadget.cmp a b ≠ Ordering.gt

instance : DecidableRel gadgetLE := fun a b => by
  unfold gadgetLE
  infer_instance

/-- Insertion into a set keyed by `Gadget` equality (spec §3: a deduplicating
set keyed by instruction content): the element is added only when no
`Gadget.beq`-equal element is already present. -/
def insertDedup (s : List Gadget) (g : Gadget) : List Gadget :=
  if s.any (fun x => Gadget.beq x g) then s else s ++ [g]

/-- `Gadget::is_stack_pivot` (lines 46-52).  The parameters are the external
rule-table predicates `crate::rules::is_stack_pivot_tail` and
`crate::rules::is_stack_pivot_head` (spec §6). -/
def Gadget.is_stack_pivot (is_stack_pivot_tail is_stack_pivot_head : Instruction → Bool)
    (g : Gadget) : Bool :=
  match g.instructions with
  | [] => false
  | [t] => is_stack_pivot_tail t
  | is => is.dropLast.any is_stack_pivot_head

/-- `Gadget::is_base_pivot` (lines 54-60).  The parameter is the external
rule-table predicate `crate::rules::is_base_pivot_head` (spec §6). -/
def Gadget.is_base_pivot (is_base_pivot_head : Instruction → Bool) (g : Gadget) : Bool :=
  match g.instructions with
  | [] => false
  | [_] => false
  | is => is.dropLast.any is_base_pivot_head

/-- One token written to the `FormatterOutput`: the characters written and
their text kind. -/
abbrev Token := List Char × FormatterTextKind

/-- The token stream the loop of `Gadget::format_instruction` (lines 72-79)
writes: each instruction is rendered by the external `IntelFormatter`
(abstracted as `fmt`), then `";"` is written with kind `Text`, then `" "`
with kind `Text` when further instructions remain (`peek().is_some()`). -/
def formatTokens (fmt : Instruction → List Token) : List Instruction → List Token
  | [] => []
  | [i] => fmt i ++ [([';'], FormatterTextKind.Text)]
  | i :: rest =>
    fmt i ++ [([';'], FormatterTextKind.Text), ([' '], FormatterTextKind.Text)]
      ++ formatTokens fmt rest

/-- `Gadget::format_instruction` (lines 62-80). -/
def Gadget.format_instruction (fmt : Instruction → List Token) (g : Gadget) : List Token :=
  formatTokens fmt g.instructions

/-- Lowercase hexadecimal digit character for `n < 16`, as Rust's `{:x}`
emits (`'0'` is code 48, `'a'` is code 97). -/
def hexDigitChar (n : Nat) : Char :=
  if n < 10 then Char.ofNat (48 + n) else Char.ofNat (87 + n)

/-- Hexadecimal digits of `n`, most significant first, prepended to `acc`.
The first argument is structural fuel; with fuel `≥ n` the fallback first
branch is never the one that terminates the recursion early (division by 16
reaches a value below 16 long before the fuel runs out). -/
def hexDigitsCore : Nat → Nat → List Char → List Char
  | 0, n, acc => hexDigitChar (n % 16) :: acc
  | fuel + 1, n, acc =>
    if n < 16 then hexDigitChar n :: acc
    else hexDigitsCore fuel (n / 16) (hexDigitChar (n % 16) :: acc)

/-- Rust `format!("{:#010x}", n)` (line 85): lowercase hexadecimal digits of
`n`, prefixed with `0x`, zero-padded between the prefix and the digits so
that the total width is at least 10 characters (the width specifier is a
minimum: values needing more than 8 digits print them all). -/
def hexFormat010 (n : Nat) : List Char :=
  let ds := hexDigitsCore n n []
  '0' :: 'x' :: (List.replicate (8 - ds.length) '0' ++ ds)

/-- `Gadget::format_full` (lines 82-89): first writes the `{:#010x}`-formatted
`file_offset` followed by `": "` as a single token of kind `Function`, then
the `format_instruction` tokens. -/
def Gadget.format_full (fmt : Instruction → List Token) (g : Gadget) : List Token :=
  (hexFormat010 g.file_offset ++ [':', ' '], FormatterTextKind.Function)
    :: Gadget.format_instruction fmt g

/-- The flat character stream of a token list (what the terminal shows once
kinds are erased). -/
def flattenTokens (ts : List Token) : List Char :=
  (ts.map Prod.fst).flatten

/-- `xs` joined with the separator `sep` between consecutive elements. -/
def sepJoin (sep : List Char) : List (List Char) → List Char
  | [] => []
  | [x] => x
  | x :: xs => x ++ sep ++ sepJoin sep xs

/-- `GadgetIterator` state (lines 92-99). -/
structure GadgetIterator where
  section_start : Nat
  tail_instruction : Instruction
  predecessors : List Instruction
  max_instructions : Nat
  noisy : Bool
  start_index : Nat
deriving DecidableEq, Repr

/-- `GadgetIterator::new` (lines 102-118): stores the six fields verbatim.
It performs no validation of `max_instructions` (see claim C3). -/
def GadgetIterator.new (section_start : Nat) (tail_instruction : Instruction)
    (predecessors : List Instruction) (max_instructions : Nat) (noisy : Bool)
    (start_index : Nat) : GadgetIterator :=
  { section_start, tail_instruction, predecessors, max_instructions, noisy, start_index }

/-- The inner `while` walk of `GadgetIterator::next` (lines 130-141), started
with `index = 0` and an empty candidate list.  `good i` is
`is_rop_gadget_head(&i, self.noisy)`, `preds` the current predecessors view
and `cap` the value of `self.max_instructions - 1`.  Returns
`(completed, index, instructions)`: `completed = false` means a bad head was
found and the start offset is abandoned (`continue 'outer`), otherwise the
loop condition failed and `index` is compared against the window length. -/
def innerWalk (good : Instruction → Bool) (preds : List Instruction) (cap : Nat)
    (index : Nat) (acc : List Instruction) : Bool × Nat × List Instruction :=
  if h : index < preds.length ∧ acc.length < cap then
    let instruction := preds.get ⟨index, h.1⟩
    if good instruction then
      innerWalk good preds cap (index + instruction.len) (acc ++ [instruction])
    else
      (false, index, acc)
  else
    (true, index, acc)
termination_by cap - acc.length
decreasing_by
  simp only [List.length_append, List.length_cons, List.length_nil]
  omega

/-- One iteration of the `'outer` loop of `GadgetIterator::next` (lines
127-155): run the inner walk with a fresh candidate list, advance the window
by one byte and bump `start_index` (the advance happens on both the bad-head
path, lines 135-136, and the normal path, lines 145-146), and yield a
`Gadget` exactly when the walk completed normally with `index == len` (a
bad-head exit has `index < len`, so folding the two exit paths into one
conjunction is behaviour-preserving).  The gadget's `file_offset` uses the
`start_index` snapshot taken before the advance (`current_start_index`,
line 143).  `rules i noisy` models `crate::rules::is_rop_gadget_head`.
Rust's `self.max_instructions - 1` is `usize` arithmetic; it is faithfully
`Nat` subtraction here only for `max_instructions ≥ 1` (for
`max_instructions = 0` the Rust expression underflows, claim C3). -/
def outerStep (rules : Instruction → Bool → Bool) (it : GadgetIterator) :
    Option Gadget × GadgetIterator :=
  let len := it.predecessors.length
  let r := innerWalk (fun i => rules i it.noisy) it.predecessors (it.max_instructions - 1) 0 []
  let it' := { it with predecessors := it.predecessors.tail, start_index := it.start_index + 1 }
  if r.1 = true ∧ r.2.1 = len then
    (some { file_offset := it.section_start + it.start_index,
            instructions := r.2.2 ++ [it.tail_instruction] }, it')
  else
    (none, it')

/-- `GadgetIterator::next` (lines 124-159): repeat `'outer` iterations while
the predecessors view is non-empty (`while !self.predecessors.is_empty()`),
returning the first yielded gadget together with the mutated iterator state;
return `none` (with the state as the loop left it) once the view is empty. -/
def nextGadget (rules : Instruction → Bool → Bool) (it : GadgetIterator) :
    Option Gadget × GadgetIterator :=
  if it.predecessors = [] then
    (none, it)
  else
    match hs : outerStep rules it with
    | (some g, it') => (some g, it')
    | (none, it') => nextGadget rules it'
termination_by it.predecessors.length
decreasing_by
  have h2 : it' = (outerStep rules it).2 := by rw [hs]
  have h3 : (outerStep rules it).2
      = { it with predecessors := it.predecessors.tail,
                  start_index := it.start_index + 1 } := by
    unfold outerStep
    dsimp only
    split <;> rfl
  rw [h2, h3]
  simp only [List.length_tail]
  have : it.predecessors.length ≠ 0 := by
    simpa [List.length_eq_zero] using ‹¬it.predecessors = []›
  omega

/-- Draining the iterator (spec §4.2: "invoked repeatedly to drain the
sequence"): the list of gadgets successive calls to `next` yield until it
returns `None`, together with the final iterator state.  The fuel argument
of the worker is structural bookkeeping only: `next` consumes at least one
window byte per yielded gadget, so fuel `it.predecessors.length` is never
exhausted (`drainAux_spec` below is proved for all sufficient fuel). -/
def drainAux (rules : Instruction → Bool → Bool) :
    Nat → GadgetIterator → List Gadget × GadgetIterator
  | 0, it => ([], it)
  | fuel + 1, it =>
    match nextGadget rules it with
    | (some g, it') =>
      (g :: (drainAux rules fuel it').1, (drainAux rules fuel it').2)
    | (none, it') => ([], it')

/-- Draining from a given iterator state. -/
def drain (rules : Instruction → Bool → Bool) (it : GadgetIterator) :
    List Gadget × GadgetIterator :=
  drainAux rules it.predecessors.length it

/-- Concrete instructions for the worked scenario of spec §8: `exA` (2 bytes)
at offset 0, `exB` (2 bytes) at offset 1, `exC` (1 byte) at offset 2, tail
`exT` directly after the 3-byte window. -/
def exA : Instruction := { len := 2, id := 1 }

/-- Second scenario instruction (2 bytes, decoded at offset 1). -/
def exB : Instruction := { len := 2, id := 2 }

/-- Third scenario instruction (1 byte, decoded at offset 2). -/
def exC : Instruction := { len := 1, id := 3 }

/-- Scenario tail instruction. -/
def exT : Instruction := { len := 1, id := 4 }

/-- Scenario legality predicate: every instruction passes, in either noise
mode. -/
def exRules : Instruction → Bool → Bool := fun _ _ => true

/-- Scenario iterator: `section_start = 0`, window `[exA, exB, exC]`,
`max_instructions = 3`. -/
def exIt : GadgetIterator := GadgetIterator.new 0 exT [exA, exB, exC] 3 false 0

/-- Scenario iterator with an exhausted window. -/
def exIt0 : GadgetIterator := GadgetIterator.new 0 exT [] 3 false 0

/-- The scenario's first yielded gadget: `[A, C, T]` at offset 0. -/
def exG1 : Gadget := { file_offset := 0, instructions := [exA, exC, exT] }

/-- Scenario iterator state after the first yield. -/
def exIt1 : GadgetIterator :=
  { section_start := 0, tail_instruction := exT, predecessors := [exB, exC],
    max_instructions := 3, noisy := false, start_index := 1 }

/-- A per-instruction renderer for the formatting claims: one token per
instruction. -/
def exFmt : Instruction → List Token := fun i => [(['m'], FormatterTextKind.Other i.id)]

/-- Two gadgets with identical instructions found at different offsets (for
the deduplication claim). -/
def exG5a : Gadget := { file_offset := 0, instructions := [exA, exT] }

/-- Same instruction sequence as `exG5a`, discovered 5 bytes later. -/
def exG5b : Gadget := { file_offset := 5, instructions := [exA, exT] }

/-- A tail-specific stack-pivot predicate for the classification claims. -/
def exSpt : Instruction → Bool := fun i => i.id == 4

/-- A head stack-pivot predicate: 2-byte instructions pivot. -/
def exSph : Instruction → Bool := fun i => i.len == 2

/-- A head base-pivot predicate: instruction 1 pivots. -/
def exBph : Instruction → Bool := fun i => i.id == 1

/-- A small gadget with an offset that fits in 8 hex digits. -/
def exG9 : Gadget := { file_offset := 255, instructions := [exA, exC] }

/-- A gadget whose offset needs 9 hex digits (`2 ^ 32`). -/
def exGBig : Gadget := { file_offset := 4294967296, instructions := [exA, exT] }

/-- The second component of `outerStep` is the same on every path: the window
advanced by one byte and `start_index` incremented. -/
theorem outerStep_snd (rules : Instruction → Bool → Bool) (it : GadgetIterator) :
    (outerStep rules it).2
      = { it with predecessors := it.predecessors.tail,
                  start_index := it.start_index + 1 } := by
  unfold outerStep
  dsimp only
  split <;> rfl

/-- Invariant of the inner walk: starting from cursor `index` and candidate
list `acc`, the walk returns the candidates it appended after `acc`, the
cursor advanced by exactly the sum of their encoded byte lengths, and a
candidate list that never exceeds the cap (when `acc` respected it). -/
theorem innerWalk_spec (good : Instruction → Bool) (preds : List Instruction) (cap : Nat) :
    ∀ m index acc c i a, cap - acc.length = m →
      innerWalk good preds cap index acc = (c, i, a) →
      ∃ t, a = acc ++ t ∧ i = index + (t.map Instruction.len).sum ∧
        (acc.length ≤ cap → a.length ≤ cap) := by
  intro m
  induction m using Nat.strong_induction_on with
  | _ m IH =>
    intro index acc c i a hm h
    unfold innerWalk at h
    split at h
    · rename_i hcond
      dsimp only at h
      split at h
      · rename_i hgood
        have hlt : cap - (acc ++ [preds.get ⟨index, hcond.1⟩]).length < m := by
          simp only [List.length_append, List.length_cons, List.length_nil]
          omega
        obtain ⟨t, ht, hi, hlen⟩ := IH _ hlt _ _ _ _ _ rfl h
        refine ⟨preds.get ⟨index, hcond.1⟩ :: t, ?_, ?_, ?_⟩
        · simpa [List.append_assoc] using ht
        · simp only [List.map_cons, List.sum_cons] at hi ⊢
          omega
        · intro _
          refine hlen ?_
          simp only [List.length_append, List.length_cons, List.length_nil]
          omega
      · simp only [Prod.mk.injEq] at h
        obtain ⟨rfl, rfl, rfl⟩ := h
        exact ⟨[], by simp, by simp, fun hh => hh⟩
    · simp only [Prod.mk.injEq] at h
      obtain ⟨rfl, rfl, rfl⟩ := h
      exact ⟨[], by simp, by simp, fun hh => hh⟩

/-- What a yielding outer iteration guarantees: the yielded gadget starts at
`section_start + start_index`, its body (all instructions except the appended
tail) was collected by the inner walk, the body's byte lengths sum to exactly
the window length (`index == len`), the body respects the cap, and the body
is non-empty whenever the window is. -/
theorem outerStep_some_spec (rules : Instruction → Bool → Bool) (it : GadgetIterator)
    (g : Gadget) (it₂ : GadgetIterator) (h : outerStep rules it = (some g, it₂)) :
    ∃ body : List Instruction,
      g.file_offset = it.section_start + it.start_index ∧
      g.instructions = body ++ [it.tail_instruction] ∧
      (body.map Instruction.len).sum = it.predecessors.length ∧
      body.length ≤ it.max_instructions - 1 ∧
      (it.predecessors ≠ [] → body ≠ []) := by
  unfold outerStep at h
  dsimp only at h
  split at h
  · rename_i hcond
    obtain ⟨hc, hlen⟩ := hcond
    rcases hw : innerWalk (fun i => rules i it.noisy) it.predecessors
        (it.max_instructions - 1) 0 [] with ⟨c, i, a⟩
    rw [hw] at h hc hlen
    simp only [Prod.mk.injEq] at h
    obtain ⟨hg, _⟩ := h
    obtain ⟨t, ht, hi, hcap⟩ :=
      innerWalk_spec (fun i => rules i it.noisy) it.predecessors (it.max_instructions - 1)
        _ 0 [] c i a rfl hw
    simp only [List.nil_append] at ht
    subst ht
    simp only [Option.some.injEq] at hg
    subst hg
    refine ⟨a, rfl, rfl, ?_, ?_, ?_⟩
    · simp only at hlen hi
      omega
    · simpa using hcap (Nat.zero_le _)
    · intro hne ha
      subst ha
      simp only at hlen hi
      simp only [List.map_nil, List.sum_nil] at hi
      exact hne (List.length_eq_zero.mp (by omega))
  · exact absurd h (by simp)

/-- A non-yielding outer iteration never yields: restated for use below. -/
theorem outerStep_none_snd (rules : Instruction → Bool → Bool) (it : GadgetIterator)
    (it₂ : GadgetIterator) (h : outerStep rules it = (none, it₂)) :
    it₂ = { it with predecessors := it.predecessors.tail,
                    start_index := it.start_index + 1 } := by
  have := outerStep_snd rules it
  rw [h] at this
  exact this

/-- Same fact for a yielding iteration. -/
theorem outerStep_some_snd (rules : Instruction → Bool → Bool) (it : GadgetIterator)
    (g : Gadget) (it₂ : GadgetIterator) (h : outerStep rules it = (some g, it₂)) :
    it₂ = { it with predecessors := it.predecessors.tail,
                    start_index := it.start_index + 1 } := by
  have := outerStep_snd rules it
  rw [h] at this
  exact this

/-- Main invariant transferred through the outer loop of `next`: every yielded
gadget is a non-empty body followed by the fixed tail, the body respects the
cap, and the body's byte lengths sum to exactly the distance from the
gadget's `file_offset` to the position one past the current window (where the
tail instruction starts).  The quantity
`section_start + start_index + predecessors.length` is invariant across
outer iterations. -/
theorem nextGadget_some_spec (rules : Instruction → Bool → Bool) :
    ∀ m (it : GadgetIterator) (g : Gadget) (it' : GadgetIterator),
      it.predecessors.length = m →
      nextGadget rules it = (some g, it') →
      ∃ body : List Instruction,
        g.instructions = body ++ [it.tail_instruction] ∧
        body ≠ [] ∧
        body.length ≤ it.max_instructions - 1 ∧
        g.file_offset + (body.map Instruction.len).sum
          = it.section_start + it.start_index + it.predecessors.length := by
  intro m
  induction m using Nat.strong_induction_on with
  | _ m IH =>
    intro it g it' hm h
    unfold nextGadget at h
    split at h
    · exact absurd h (by simp)
    · rename_i hne
      split at h
      · rename_i g0 it0 heq
        simp only [Prod.mk.injEq, Option.some.injEq] at h
        obtain ⟨hg, _⟩ := h
        subst hg
        obtain ⟨body, hoff, hins, hsum, hcap, hbody⟩ := outerStep_some_spec rules it g0 it0 heq
        exact ⟨body, hins, hbody hne, hcap, by omega⟩
      · rename_i it0 heq
        have h0 : it0 = { it with predecessors := it.predecessors.tail,
                                  start_index := it.start_index + 1 } :=
          outerStep_none_snd rules it it0 heq
        have hlt : it0.predecessors.length < m := by
          rw [h0]
          simp only [List.length_tail]
          have : it.predecessors.length ≠ 0 := fun hz => hne (List.length_eq_zero.mp hz)
          omega
        obtain ⟨body, hins, hbody, hcap, hsum⟩ := IH _ hlt it0 g it' rfl h
        rw [h0] at hins hcap hsum
        simp only [List.length_tail] at hsum
        refine ⟨body, hins, hbody, hcap, ?_⟩
        have : it.predecessors.length ≠ 0 := fun hz => hne (List.length_eq_zero.mp hz)
        omega

/-- When `next` returns `None` the predecessors view has been exhausted. -/
theorem nextGadget_none_spec (rules : Instruction → Bool → Bool) :
    ∀ m (it : GadgetIterator) (it' : GadgetIterator),
      it.predecessors.length = m →
      nextGadget rules it = (none, it') →
      it'.predecessors = [] := by
  intro m
  induction m using Nat.strong_induction_on with
  | _ m IH =>
    intro it it' hm h
    unfold nextGadget at h
    split at h
    · rename_i hemp
      simp only [Prod.mk.injEq] at h
      obtain ⟨_, rfl⟩ := h
      exact hemp
    · rename_i hne
      split at h
      · simp at h
      · rename_i it0 heq
        have h0 : it0 = { it with predecessors := it.predecessors.tail,
                                  start_index := it.start_index + 1 } :=
          outerStep_none_snd rules it it0 heq
        have hlt : it0.predecessors.length < m := by
          rw [h0]
          simp only [List.length_tail]
          have : it.predecessors.length ≠ 0 := fun hz => hne (List.length_eq_zero.mp hz)
          omega
        exact IH _ hlt it0 it' rfl h

/-- A successful call to `next` strictly shrinks the predecessors view. -/
theorem nextGadget_some_shrink (rules : Instruction → Bool → Bool) :
    ∀ m (it : GadgetIterator) (g : Gadget) (it' : GadgetIterator),
      it.predecessors.length = m →
      nextGadget rules it = (some g, it') →
      it'.predecessors.length < it.predecessors.length := by
  intro m
  induction m using Nat.strong_induction_on with
  | _ m IH =>
    intro it g it' hm h
    unfold nextGadget at h
    split at h
    · exact absurd h (by simp)
    · rename_i hne
      have hlen : it.predecessors.length ≠ 0 := fun hz => hne (List.length_eq_zero.mp hz)
      split at h
      · rename_i g0 it0 heq
        simp only [Prod.mk.injEq, Option.some.injEq] at h
        obtain ⟨_, hit⟩ := h
        rw [← hit, outerStep_some_snd rules it g0 it0 heq]
        simp only [List.length_tail]
        omega
      · rename_i it0 heq
        have h0 : it0 = { it with predecessors := it.predecessors.tail,
                                  start_index := it.start_index + 1 } :=
          outerStep_none_snd rules it it0 heq
        have hlt : it0.predecessors.length < m := by
          rw [h0]
          simp only [List.length_tail]
          omega
        have := IH _ hlt it0 g it' rfl h
        omega

/-- Unfolding `next` one outer iteration: a yielding iteration ends the call. -/
theorem nextGadget_step_some (rules : Instruction → Bool → Bool) (it : GadgetIterator)
    (g : Gadget) (it₂ : GadgetIterator) (hne : ¬it.predecessors = [])
    (hstep : outerStep rules it = (some g, it₂)) :
    nextGadget rules it = (some g, it₂) := by
  rw [nextGadget, if_neg hne]
  split
  · rename_i g' it' heq
    rw [hstep] at heq
    simp only [Prod.mk.injEq, Option.some.injEq] at heq
    obtain ⟨rfl, rfl⟩ := heq
    rfl
  · rename_i it' heq
    rw [hstep] at heq
    simp at heq

/-- Unfolding `next` one outer iteration: a non-yielding iteration continues
the `'outer` loop on the advanced state. -/
theorem nextGadget_step_none (rules : Instruction → Bool → Bool) (it : GadgetIterator)
    (it₂ : GadgetIterator) (hne : ¬it.predecessors = [])
    (hstep : outerStep rules it = (none, it₂)) :
    nextGadget rules it = nextGadget rules it₂ := by
  rw [nextGadget, if_neg hne]
  split
  · rename_i g' it' heq
    rw [hstep] at heq
    simp at heq
  · rename_i it' heq
    rw [hstep] at heq
    simp only [Prod.mk.injEq] at heq
    rw [heq.2]

/-- `next` on an exhausted view returns `None` and leaves the state alone. -/
theorem nextGadget_nil (rules : Instruction → Bool → Bool) (it : GadgetIterator)
    (h : it.predecessors = []) : nextGadget rules it = (none, it) := by
  rw [nextGadget, if_pos h]

/-- The order induced by `Gadget.cmp` coincides with `≤` on `file_offset`. -/
theorem gadgetLE_iff (a b : Gadget) : gadgetLE a b ↔ a.file_offset ≤ b.file_offset := by
  unfold gadgetLE Gadget.cmp
  rw [ne_eq, Nat.compare_eq_gt, Nat.not_lt]

instance : IsTotal Gadget gadgetLE :=
  ⟨fun a b => by
    rw [gadgetLE_iff, gadgetLE_iff]
    omega⟩

instance : IsTrans Gadget gadgetLE :=
  ⟨fun a b c hab hbc => by
    rw [gadgetLE_iff] at hab hbc ⊢
    omega⟩

/-- `hexDigitsCore` only ever appends digits in front of its accumulator. -/
theorem hexDigitsCore_append :
    ∀ fuel n acc, hexDigitsCore fuel n acc = hexDigitsCore fuel n [] ++ acc := by
  intro fuel
  induction fuel with
  | zero =>
    intro n acc
    simp [hexDigitsCore]
  | succ fuel IH =>
    intro n acc
    unfold hexDigitsCore
    split
    · simp
    · rw [IH (n / 16) (hexDigitChar (n % 16) :: acc), IH (n / 16) [hexDigitChar (n % 16)]]
      simp

/-- A value below `16 ^ k` (`1 ≤ k`) has at most `k` hexadecimal digits. -/
theorem hexDigitsCore_length_le :
    ∀ fuel k n, n < 16 ^ k → 1 ≤ k → (hexDigitsCore fuel n []).length ≤ k := by
  intro fuel
  induction fuel with
  | zero =>
    intro k n _ hk
    simpa [hexDigitsCore] using hk
  | succ fuel IH =>
    intro k n hn hk
    unfold hexDigitsCore
    split
    · simpa using hk
    · rename_i hge
      have hk2 : 2 ≤ k := by
        by_contra hq
        have hk1 : k = 1 := by omega
        subst hk1
        simp only [pow_one] at hn
        exact hge hn
      have hdiv : n / 16 < 16 ^ (k - 1) := by
        have h16 : 16 ^ k = 16 ^ (k - 1) * 16 := by
          rw [← Nat.pow_succ]
          congr 1
          omega
        rw [h16] at hn
        omega
      rw [hexDigitsCore_append]
      have := IH (k - 1) (n / 16) hdiv (by omega)
      simp only [List.length_append, List.length_cons, List.length_nil]
      omega

/-- For offsets below `2 ^ 32 = 16 ^ 8` the `{:#010x}` rendering is exactly
10 characters: `0x` and 8 hex digits. -/
theorem hexFormat010_length (n : Nat) (h : n < 4294967296) :
    (hexFormat010 n).length = 10 := by
  unfold hexFormat010
  have hlen : (hexDigitsCore n n []).length ≤ 8 :=
    hexDigitsCore_length_le n 8 n (by norm_num; omega) (by norm_num)
  simp only [List.length_cons, List.length_append, List.length_replicate]
  omega

/-- Character stream of the `format_instruction` token list: the individual
instruction renderings joined by `"; "`, with a final `";"` and no trailing
separator. -/
theorem formatTokens_flatten (fmt : Instruction → List Token) :
    ∀ is : List Instruction, is ≠ [] →
      flattenTokens (formatTokens fmt is)
        = sepJoin [';', ' '] (is.map fun i => flattenTokens (fmt i)) ++ [';'] := by
  intro is
  induction is with
  | nil => intro h; exact absurd rfl h
  | cons i rest IH =>
    intro _
    cases rest with
    | nil =>
      simp [formatTokens, flattenTokens, sepJoin]
    | cons j rest2 =>
      have hne : j :: rest2 ≠ [] := by simp
      calc flattenTokens (formatTokens fmt (i :: j :: rest2))
          = flattenTokens (fmt i) ++ ([';'] ++ ([' ']
              ++ flattenTokens (formatTokens fmt (j :: rest2)))) := by
            simp [formatTokens, flattenTokens]
        _ = sepJoin [';', ' '] ((i :: j :: rest2).map fun k => flattenTokens (fmt k)) ++ [';'] := by
            rw [IH hne]
            simp only [List.map_cons]
            show _ = (flattenTokens (fmt i) ++ [';', ' ']
              ++ sepJoin [';', ' '] ((j :: rest2).map fun k => flattenTokens (fmt k))) ++ [';']
            simp [List.append_assoc]

/-- With sufficient fuel, draining yields at most one gadget per window byte
and ends with the predecessors view exhausted. -/
theorem drainAux_spec (rules : Instruction → Bool → Bool) :
    ∀ fuel it, it.predecessors.length ≤ fuel →
      (drainAux rules fuel it).1.length ≤ it.predecessors.length ∧
      (drainAux rules fuel it).2.predecessors = [] := by
  intro fuel
  induction fuel with
  | zero =>
    intro it hle
    have hnil : it.predecessors = [] := List.length_eq_zero.mp (by omega)
    exact ⟨by simp [drainAux], by simpa [drainAux] using hnil⟩
  | succ fuel IH =>
    intro it hle
    unfold drainAux
    split
    · rename_i g it' hn
      have hsh : it'.predecessors.length < it.predecessors.length :=
        nextGadget_some_shrink rules it.predecessors.length it g it' rfl hn
      obtain ⟨h1, h2⟩ := IH it' (by omega)
      refine ⟨?_, h2⟩
      simp only [List.length_cons]
      omega
    · rename_i it' hn
      exact ⟨by simp, nextGadget_none_spec rules it.predecessors.length it it' rfl hn⟩

/-- Draining an `n`-byte window yields at most `n` gadgets, and the final
state's view is empty. -/
theorem drain_spec (rules : Instruction → Bool → Bool) (it : GadgetIterator) :
    (drain rules it).1.length ≤ it.predecessors.length ∧
    (drain rules it).2.predecessors = [] :=
  drainAux_spec rules it.predecessors.length it (Nat.le_refl _)

/-- First production step of the worked §8 scenario: the walk from offset 0
collects `A` (cursor 0 → 2) and `C` (cursor 2 → 3 = window length) and yields
`[A, C, T]` at `file_offset` 0. -/
theorem exEval1 : nextGadget exRules exIt = (some exG1, exIt1) := by
  refine nextGadget_step_some exRules exIt exG1 exIt1 (by decide) ?_
  simp [outerStep, innerWalk, exIt, exIt1, exG1, exRules, exA, exB, exC, exT, GadgetIterator.new]

/-- Claim C1: for every `Gadget` yielded by `GadgetIterator::next`, the sum of
the encoded byte lengths of all instructions except the tail equals exactly
the byte distance from the gadget's `file_offset` to the tail's start offset
(the position one past the predecessors window, i.e.
`section_start + start_index + predecessors.length`, a quantity invariant
across outer iterations): the inner cursor lands precisely on the window
boundary, with no overrun and no gap. -/
theorem claim_C1 (rules : Instruction → Bool → Bool) (it : GadgetIterator)
    (g : Gadget) (it' : GadgetIterator) (h : nextGadget rules it = (some g, it')) :
    g.file_offset + ((g.instructions.dropLast).map Instruction.len).sum
      = it.section_start + it.start_index + it.predecessors.length := by
  obtain ⟨body, hins, hne, hcap, hsum⟩ :=
    nextGadget_some_spec rules it.predecessors.length it g it' rfl h
  rw [hins, List.dropLast_concat]
  exact hsum

/-- Witness for C1 at the worked §8 scenario (`[A, C, T]` at offset 0:
`0 + (2 + 1) = 0 + 0 + 3`). -/
theorem claim_C1_witness :
    exG1.file_offset + ((exG1.instructions.dropLast).map Instruction.len).sum
      = exIt.section_start + exIt.start_index + exIt.predecessors.length :=
  claim_C1 exRules exIt exG1 exIt1 exEval1

/-- Claim C2: every gadget yielded by an iterator with `max_instructions ≥ 1`
ends in the iterator's tail instruction and has between 1 and
`max_instructions` instructions. -/
theorem claim_C2 (rules : Instruction → Bool → Bool) (it : GadgetIterator)
    (g : Gadget) (it' : GadgetIterator) (hmax : 1 ≤ it.max_instructions)
    (h : nextGadget rules it = (some g, it')) :
    g.instructions.getLast? = some it.tail_instruction ∧
    1 ≤ g.instructions.length ∧ g.instructions.length ≤ it.max_instructions := by
  obtain ⟨body, hins, hne, hcap, hsum⟩ :=
    nextGadget_some_spec rules it.predecessors.length it g it' rfl h
  refine ⟨?_, ?_, ?_⟩
  · rw [hins]
    exact List.getLast?_concat _
  · rw [hins]
    simp
  · rw [hins]
    simp only [List.length_append, List.length_cons, List.length_nil]
    omega

/-- Witness for C2 at the worked scenario (`max_instructions = 3`,
`[A, C, T]` of length 3 ending in `T`). -/
theorem claim_C2_witness :
    1 ≤ exIt.max_instructions ∧
    (exG1.instructions.getLast? = some exIt.tail_instruction ∧
     1 ≤ exG1.instructions.length ∧ exG1.instructions.length ≤ exIt.max_instructions) :=
  ⟨by decide, claim_C2 exRules exIt exG1 exIt1 (by decide) exEval1⟩

/-- Claim C3 (evaluation at the failing input): `GadgetIterator::new` performs
no validation whatsoever — constructing with `max_instructions = 0` succeeds
and stores the zero verbatim, so a zero cap is not rejected at construction;
the underflowing `usize` expression `max_instructions - 1` is only reached
later, inside `next`. -/
theorem claim_C3 :
    GadgetIterator.new 7 exT [exA] 0 true 5
      = { section_start := 7, tail_instruction := exT, predecessors := [exA],
          max_instructions := 0, noisy := true, start_index := 5 } := rfl

/-- Claim C4: every outer iteration (whether it yields a gadget or abandons
the start offset) shrinks the predecessors view by exactly one element;
`next` on an exhausted view returns `None` with the state unchanged; whenever
`next` returns `None` the view has been exhausted; and draining an `n`-byte
window yields at most `n` gadgets and terminates with the view empty. -/
theorem claim_C4 (rules : Instruction → Bool → Bool) (it : GadgetIterator) :
    (¬it.predecessors = [] →
       (outerStep rules it).2.predecessors.length + 1 = it.predecessors.length) ∧
    (it.predecessors = [] → nextGadget rules it = (none, it)) ∧
    (∀ it', nextGadget rules it = (none, it') → it'.predecessors = []) ∧
    (drain rules it).1.length ≤ it.predecessors.length ∧
    (drain rules it).2.predecessors = [] := by
  refine ⟨?_, nextGadget_nil rules it, ?_, (drain_spec rules it).1, (drain_spec rules it).2⟩
  · intro hne
    rw [outerStep_snd]
    simp only [List.length_tail]
    have : it.predecessors.length ≠ 0 := fun hz => hne (List.length_eq_zero.mp hz)
    omega
  · intro it' h
    exact nextGadget_none_spec rules it.predecessors.length it it' rfl h

/-- Witness for C4: one outer iteration on the 3-byte scenario window leaves
2 bytes, and `next` on an exhausted window reports `None`. -/
theorem claim_C4_witness :
    ((outerStep exRules exIt).2.predecessors.length + 1 = exIt.predecessors.length) ∧
    nextGadget exRules exIt0 = (none, exIt0) :=
  ⟨(claim_C4 exRules exIt).1 (by decide), (claim_C4 exRules exIt0).2.1 (by decide)⟩

/-- Claim C10: every gadget actually yielded by `GadgetIterator::next` has at
least two instructions (a non-empty head part plus the tail): the outer loop
only runs on a non-empty view, whose length a yielding walk must equal with
the cursor, so the candidate list cannot be empty. -/
theorem claim_C10 (rules : Instruction → Bool → Bool) (it : GadgetIterator)
    (g : Gadget) (it' : GadgetIterator) (h : nextGadget rules it = (some g, it')) :
    2 ≤ g.instructions.length := by
  obtain ⟨body, hins, hne, _, _⟩ :=
    nextGadget_some_spec rules it.predecessors.length it g it' rfl h
  rw [hins]
  have : body.length ≠ 0 := fun hz => hne (List.length_eq_zero.mp hz)
  simp only [List.length_append, List.length_cons, List.length_nil]
  omega

/-- Witness for C10 at the worked scenario: `[A, C, T]` has 3 ≥ 2
instructions. -/
theorem claim_C10_witness : 2 ≤ exG1.instructions.length :=
  claim_C10 exRules exIt exG1 exIt1 exEval1

/-- Claim C5: `Gadget` equality and hashing are structural over the
instruction sequence only and ignore `file_offset`: two gadgets with
identical instructions but different offsets compare equal, hash equal under
any hasher, and a set keyed by gadget equality deduplicates them to one
entry. -/
theorem claim_C5 (hasher : List Instruction → Nat) (g1 g2 : Gadget)
    (hins : g1.instructions = g2.instructions)
    (hoff : g1.file_offset ≠ g2.file_offset) :
    Gadget.beq g1 g2 = true ∧
    Gadget.hashWith hasher g1 = Gadget.hashWith hasher g2 ∧
    (insertDedup (insertDedup [] g1) g2).length = 1 := by
  refine ⟨?_, ?_, ?_⟩
  · simp [Gadget.beq, hins]
  · simp [Gadget.hashWith, hins]
  · simp [insertDedup, Gadget.beq, hins]

/-- Witness for C5: `exG5a` (offset 0) and `exG5b` (offset 5) share
instructions `[A, T]`. -/
theorem claim_C5_witness :
    Gadget.beq exG5a exG5b = true ∧
    Gadget.hashWith List.length exG5a = Gadget.hashWith List.length exG5b ∧
    (insertDedup (insertDedup [] exG5a) exG5b).length = 1 :=
  claim_C5 List.length exG5a exG5b (by decide) (by decide)

/-- Claim C6: the ordering on `Gadget` is total and determined solely by
`file_offset`, ascending: `cmp` is exactly `compare` on the offsets, is
unchanged by replacing either gadget's instructions, answers `lt` exactly on
smaller offsets, any two gadgets are comparable, and sorting any list of
gadgets by the induced order yields ascending addresses. -/
theorem claim_C6 :
    (∀ a b : Gadget, Gadget.cmp a b = compare a.file_offset b.file_offset) ∧
    (∀ (a b : Gadget) (l1 l2 : List Instruction),
       Gadget.cmp { a with instructions := l1 } { b with instructions := l2 }
         = Gadget.cmp a b) ∧
    (∀ a b : Gadget, Gadget.cmp a b = Ordering.lt ↔ a.file_offset < b.file_offset) ∧
    (∀ a b : Gadget, gadgetLE a b ∨ gadgetLE b a) ∧
    (∀ l : List Gadget,
       (List.insertionSort gadgetLE l).Sorted
         (fun a b => a.file_offset ≤ b.file_offset)) := by
  refine ⟨fun a b => rfl, fun a b l1 l2 => rfl, ?_, ?_, ?_⟩
  · intro a b
    exact Nat.compare_eq_lt
  · intro a b
    exact IsTotal.total a b
  · intro l
    exact List.Pairwise.imp (fun hab => (gadgetLE_iff _ _).mp hab)
      (List.sorted_insertionSort gadgetLE l)

/-- Claim C7: `is_stack_pivot` follows the shape rules exactly: empty body →
false; single instruction → exactly the tail-specific predicate on it;
length > 1 → true exactly when some instruction strictly before the tail
satisfies the head predicate (the tail itself excluded). -/
theorem claim_C7 (spt sph : Instruction → Bool) (g : Gadget) :
    (g.instructions = [] → Gadget.is_stack_pivot spt sph g = false) ∧
    (∀ t, g.instructions = [t] → Gadget.is_stack_pivot spt sph g = spt t) ∧
    (1 < g.instructions.length →
       (Gadget.is_stack_pivot spt sph g = true ↔
          ∃ i ∈ g.instructions.dropLast, sph i = true)) := by
  rcases g with ⟨off, ins⟩
  refine ⟨?_, ?_, ?_⟩
  · intro h
    have h' : ins = [] := h
    subst h'
    rfl
  · intro t h
    have h' : ins = [t] := h
    subst h'
    rfl
  · intro hlen
    rcases ins with _ | ⟨a, ins⟩
    · simp at hlen
    rcases ins with _ | ⟨b, l⟩
    · simp at hlen
    simp [Gadget.is_stack_pivot, List.any_eq_true]

/-- Witness for C7: `[A, C, T]` (length 3 > 1) is a stack pivot under a head
predicate satisfied by `A`. -/
theorem claim_C7_witness :
    1 < exG1.instructions.length ∧ Gadget.is_stack_pivot exSpt exSph exG1 = true :=
  ⟨by decide, ((claim_C7 exSpt exSph exG1).2.2 (by decide)).mpr (by decide)⟩

/-- Claim C8: `is_base_pivot` is false for every gadget with at most one
instruction; for length > 1 it is true exactly when some non-tail instruction
satisfies the head base-pivot predicate. -/
theorem claim_C8 (bph : Instruction → Bool) (g : Gadget) :
    (g.instructions.length ≤ 1 → Gadget.is_base_pivot bph g = false) ∧
    (1 < g.instructions.length →
       (Gadget.is_base_pivot bph g = true ↔
          ∃ i ∈ g.instructions.dropLast, bph i = true)) := by
  rcases g with ⟨off, ins⟩
  rcases ins with _ | ⟨a, ins⟩
  · exact ⟨fun _ => rfl, fun h => by simp at h⟩
  rcases ins with _ | ⟨b, l⟩
  · exact ⟨fun _ => rfl, fun h => by simp at h⟩
  refine ⟨fun h => by simp at h, fun _ => ?_⟩
  simp [Gadget.is_base_pivot, List.any_eq_true]

/-- Witness for C8: `[A, C, T]` is a base pivot under a head predicate
satisfied by `A`; its length exceeds 1. -/
theorem claim_C8_witness :
    1 < exG1.instructions.length ∧ Gadget.is_base_pivot exBph exG1 = true :=
  ⟨by decide, ((claim_C8 exBph exG1).2 (by decide)).mpr (by decide)⟩

/-- Claim C9 counterexample: the claimed "exactly 10 characters (8 hex
digits)" address prefix fails for a gadget whose `file_offset` needs 9 hex
digits.  Rust's `{:#010x}` width is a minimum, so at `file_offset = 2 ^ 32`
the address part has 11 characters, not 10 (such offsets are reachable: any
iterator constructed with `section_start = 2 ^ 32` yields them). -/
theorem claim_C9_counterexample :
    (Gadget.format_full exFmt exGBig).headD ([], FormatterTextKind.Text)
        = (hexFormat010 4294967296 ++ [':', ' '], FormatterTextKind.Function)
      ∧ ¬(hexFormat010 4294967296).length = 10
      ∧ (hexFormat010 4294967296).length = 11 :=
  ⟨rfl, by decide, by decide⟩

/-- Claim C9 (amended): for every gadget whose `file_offset` is below
`2 ^ 32`, `format_full` first emits the offset as a zero-padded lowercase
hexadecimal address with a `0x` prefix totalling exactly 10 characters
(8 hex digits), followed by `": "`, as one token of the distinguished
label/function kind; then come exactly the instruction-only tokens, whose
character stream is the instruction renderings separated by `"; "` with the
final instruction terminated by `";"` and no trailing separator.  (For
offsets of `2 ^ 32` and above the address part keeps all its hex digits and
is longer than 10 characters.) -/
theorem claim_C9 (fmt : Instruction → List Token) (g : Gadget)
    (hoff : g.file_offset < 4294967296) (hne : g.instructions ≠ []) :
    Gadget.format_full fmt g
      = (hexFormat010 g.file_offset ++ [':', ' '], FormatterTextKind.Function)
          :: Gadget.format_instruction fmt g
    ∧ (hexFormat010 g.file_offset).length = 10
    ∧ flattenTokens (Gadget.format_instruction fmt g)
        = sepJoin [';', ' '] (g.instructions.map fun i => flattenTokens (fmt i)) ++ [';'] :=
  ⟨rfl, hexFormat010_length g.file_offset hoff,
    formatTokens_flatten fmt g.instructions hne⟩

/-- Witness for the amended C9 at a two-instruction gadget with offset 255. -/
theorem claim_C9_witness :
    (hexFormat010 exG9.file_offset).length = 10 ∧
    flattenTokens (Gadget.format_instruction exFmt exG9)
      = sepJoin [';', ' '] (exG9.instructions.map fun i => flattenTokens (exFmt i)) ++ [';'] :=
  (claim_C9 exFmt exG9 (by decide) (by decide)).2
